import Mathlib

/-!
Verification of the stabilizer-state benchmark core
(`stabilizer-states/stabilizer_benchmark.py`).

The embedding models, from the source:
- the stabilizer sampler `random_stabilizer` (lines 63-72), over Paulis in
  the symplectic `(phase, z, x)` representation used by the quantum SDK;
- the measurement-basis rewriter `append_measurement` (lines 74-112), over
  an instruction-list view of the circuit;
- the coupling-graph filtering and greedy edge-matching loop of
  `StabilizerCircuit` (lines 33-53), with the random edge draw modelled as
  an explicit choice function;
- the parity analyzer `analyze_and_print_result` (lines 119-140), with the
  external `metrics.polarization_fidelity` modelled from the spec.
-/

/-- A Pauli operator on `n` qubits in the symplectic representation
`(-i)^phase · Z^z · X^x`, with one `z` bit and one `x` bit per qubit
(index `i` of the lists is qubit `i`).  This models the Pauli objects of the quantum SDK
used by `random_stabilizer`. -/
structure Pauli where
  z : List Bool
  x : List Bool
  phase : ZMod 4
deriving DecidableEq

/-- Pauli-group composition in the symplectic representation: `z` and `x`
bits add mod 2 (componentwise xor), and the phase accumulates the sign
crossings between the `x` part of the first factor and the `z` part of the
second.  Models the `Pauli.compose` operation of the SDK (only the `z`/`x` components are
relied on by the theorems below). -/
def Pauli.compose (a b : Pauli) : Pauli :=
  { z := List.zipWith Bool.xor a.z b.z
    x := List.zipWith Bool.xor a.x b.x
    phase := a.phase + b.phase +
      2 * ((List.zipWith (fun u v => u && v) a.x b.z).count true : ZMod 4) }

/-- The all-identity Pauli `I...I` on `n` qubits, as built by
`quantum_info.Pauli` applied to the length-`n` all-I label on line 67. -/
def identityPauli (n : Nat) : Pauli :=
  { z := List.replicate n false, x := List.replicate n false, phase := 0 }

/-- `True` (as a `Bool`) iff every symbol of the Pauli string is `I`,
i.e. all `z` and `x` bits are clear. -/
def isAllIdentity (p : Pauli) : Bool :=
  p.z.all (fun b => !b) && p.x.all (fun b => !b)

/-- `random_stabilizer` (lines 63-72), with the Clifford modelled by its
list of stabilizer generators (`cliff.stabilizer.to_labels()`) and the
random draw `m = np.random.randint(1, 2 ** n_sys)` made an explicit
parameter.  Bit `idx` of the big-endian `n`-bit binary string of `m`
(i.e. bit `n - 1 - idx` of `m`) selects generator `idx`, and the selected
generators are composed in order onto the identity. -/
def random_stabilizer (gens : List Pauli) (m : Nat) : Pauli :=
  gens.enum.foldl
    (fun acc ig => if m.testBit (gens.length - 1 - ig.1) then acc.compose ig.2 else acc)
    (identityPauli gens.length)

/-- The `z`/`x` bit-vector pair of the subset of generators selected by the
bits of `m`, accumulated by componentwise xor only (no phase).  Used to
state independence of the generators. -/
def selXor (gens : List Pauli) (m : Nat) : List Bool × List Bool :=
  gens.enum.foldl
    (fun acc ig =>
      if m.testBit (gens.length - 1 - ig.1) then
        (List.zipWith Bool.xor acc.1 ig.2.z, List.zipWith Bool.xor acc.2 ig.2.x)
      else acc)
    (List.replicate gens.length false, List.replicate gens.length false)

/-- Independence of the stabilizer generators (an invariant of every
stabilizer table of a Clifford): no non-empty subset of the generators
composes, on the `z`/`x` bits, to the all-identity.  Subsets are indexed
by the integers `0 < m < 2 ^ n` exactly as in `random_stabilizer`. -/
def IndepGens (gens : List Pauli) : Prop :=
  ∀ m : Nat, m < 2 ^ gens.length → m ≠ 0 →
    ((selXor gens m).1.any id || (selXor gens m).2.any id) = true

instance (gens : List Pauli) : Decidable (IndepGens gens) := by
  unfold IndepGens
  infer_instance

/-- Concrete stabilizer generator `+ZI` on two qubits (qubit 1 carries `Z`),
used to instantiate the sampler theorems. -/
def genZI : Pauli := { z := [false, true], x := [false, false], phase := 0 }

/-- Concrete stabilizer generator `+IZ` on two qubits (qubit 0 carries `Z`),
used to instantiate the sampler theorems. -/
def genIZ : Pauli := { z := [true, false], x := [false, false], phase := 0 }

/-- One symbol of a Pauli label string: `I`, `X`, `Y` or `Z`. -/
inductive PauliSym where
  | I | X | Y | Z
deriving DecidableEq

/-- A quantum-circuit instruction, as appended by `append_measurement`
(lines 74-112): Hadamard, S-dagger, bit flip, barrier, or a measurement of
a qubit into a classical bit. -/
inductive Instr where
  | h (q : Nat)
  | sdg (q : Nat)
  | x (q : Nat)
  | barrier
  | measure (q : Nat) (c : Nat)
deriving DecidableEq

/-- One iteration of the basis-rotation loop of `append_measurement`
(lines 86-95): the accumulator holds the basis-change instructions emitted
so far and the `mmt_qubits` list; `ip` is one `(idx, pauli)` pair of
`enumerate(reversed(stabilizer))`.  `X` appends a Hadamard, `Y` appends
S-dagger then Hadamard, `Z` appends no gate; all three record the qubit in
`mmt_qubits`, and `I` is skipped. -/
def basisStep (acc : List Instr × List Nat) (ip : Nat × PauliSym) :
    List Instr × List Nat :=
  match ip.2 with
  | PauliSym.I => acc
  | PauliSym.X => (acc.1 ++ [Instr.h ip.1], acc.2 ++ [ip.1])
  | PauliSym.Y => (acc.1 ++ [Instr.sdg ip.1, Instr.h ip.1], acc.2 ++ [ip.1])
  | PauliSym.Z => (acc.1, acc.2 ++ [ip.1])

/-- The basis-change gates one `(idx, pauli)` pair contributes: none for
`I` and `Z`, a Hadamard for `X`, S-dagger followed by Hadamard for `Y`.
This is the per-symbol description of §4.2 of the spec, compared against
the imperative loop `basisStep`. -/
def gateOf (ip : Nat × PauliSym) : List Instr :=
  match ip.2 with
  | PauliSym.I => []
  | PauliSym.X => [Instr.h ip.1]
  | PauliSym.Y => [Instr.sdg ip.1, Instr.h ip.1]
  | PauliSym.Z => []

/-- The measured-qubit contribution of one `(idx, pauli)` pair: the qubit
index for every non-identity symbol, nothing for `I`. -/
def mmtOf (ip : Nat × PauliSym) : Option Nat :=
  if ip.2 = PauliSym.I then none else some ip.1

/-- The ordered list of qubit indices carrying non-identity symbols
(spec §4.2): positions are counted in the reversed label string, i.e. they
are qubit indices in the little-endian convention of the source. -/
def specMmtQubits (syms : List PauliSym) : List Nat :=
  (syms.reverse.enum).filterMap mmtOf

/-- The full basis-change instruction sequence described by §4.2 of the
spec: the concatenation of the per-symbol gates over the reversed label. -/
def specBasisGates (syms : List PauliSym) : List Instr :=
  (syms.reverse.enum).flatMap gateOf

/-- The circuit `append_measurement` is specified to return (§4.2): the
input circuit, the basis-change gates, the parity-correcting bit flip on
the first measured qubit when the sign is negative, a barrier unless every
symbol is `I` or `Z`, and one measurement per measured qubit mapped to
consecutive classical bits. -/
def specCirc (circuit : List Instr) (neg : Bool) (syms : List PauliSym) :
    List Instr :=
  circuit ++ specBasisGates syms
    ++ (if neg then [Instr.x ((specMmtQubits syms).headD 0)] else [])
    ++ (if syms.all (fun p => p == PauliSym.Z || p == PauliSym.I) then []
        else [Instr.barrier])
    ++ (specMmtQubits syms).enum.map (fun iq => Instr.measure iq.2 iq.1)

/-- `append_measurement` (lines 74-112).  The signed Pauli label is given
as a sign flag `neg` (`True` for a leading `-`) and the sign-stripped
symbol list `syms` in label order.  The result is the full instruction
list of the returned circuit copy, the `mmt_qubits` list, and the size of
the classical register.  When the sign is negative and no qubit is
measured, `mmt_qubits[0]` on line 98 raises an `IndexError`, modelled as
the error case. -/
def append_measurement (circuit : List Instr) (neg : Bool)
    (syms : List PauliSym) : Except String (List Instr × List Nat × Nat) :=
  let bs := (syms.reverse.enum).foldl basisStep ([], [])
  let mq := bs.2
  let withBasis := circuit ++ bs.1
  let withX : Except String (List Instr) :=
    if neg then
      match mq with
      | [] => Except.error "IndexError: list index out of range"
      | q :: _ => Except.ok (withBasis ++ [Instr.x q])
    else Except.ok withBasis
  match withX with
  | Except.error e => Except.error e
  | Except.ok c1 =>
    let c2 := if syms.all (fun p => p == PauliSym.Z || p == PauliSym.I) then c1
      else c1 ++ [Instr.barrier]
    Except.ok (c2 ++ mq.enum.map (fun iq => Instr.measure iq.2 iq.1), mq, mq.length)

/-- The coupling-graph normalization of `StabilizerCircuit` (line 35): each
edge is kept only if both endpoints lie in `range(num_qubits)`, and the
kept edges become frozensets (unordered pairs).  The Python set of
frozensets is modelled as a deduplicated list of `Finset Nat` edges; the
randomized iteration order of the set is supplied by the choice function of
the matching loop below. -/
def couplingFilter (num_qubits : Nat) (graph : List (Nat × Nat)) :
    List (Finset Nat) :=
  ((graph.filter fun e => decide (e.1 < num_qubits ∧ e.2 < num_qubits)).map
    fun e => ({e.1, e.2} : Finset Nat)).dedup

/-- Removal step of the matching loop (line 53): drop every edge sharing an
endpoint with the chosen edge `e` (the chosen edge itself included, since
it meets itself). -/
def removeTouching (s : List (Finset Nat)) (e : Finset Nat) :
    List (Finset Nat) :=
  s.filter fun f => f ∩ e = ∅

/-- The greedy edge-selection loop of `StabilizerCircuit` (lines 46-53),
with the random draw `sample(cg_temp, 1)[0]` modelled by the choice
function `pick` and the `while` loop bounded by fuel: while edges remain,
choose one, record it, and remove it together with every edge touching
it. -/
def greedyAux (pick : List (Finset Nat) → Finset Nat) :
    Nat → List (Finset Nat) → List (Finset Nat)
  | 0, _ => []
  | Nat.succ n, s =>
    if s = [] then []
    else pick s :: greedyAux pick n (removeTouching s (pick s))

/-- The edges chosen for two-qubit operations in one layer of
`StabilizerCircuit`: the greedy loop run on the whole coupling set, with
fuel equal to the number of edges (the loop removes at least the chosen
edge per iteration, so this fuel is never exhausted). -/
def greedyMatching (pick : List (Finset Nat) → Finset Nat)
    (s : List (Finset Nat)) : List (Finset Nat) :=
  greedyAux pick s.length s

/-- A concrete choice function standing in for the uniform random edge
draw: take the first remaining edge. -/
def headPick (s : List (Finset Nat)) : Finset Nat :=
  s.headD ∅

/-- The parity partition of `analyze_and_print_result` (lines 130-134):
starting from zeroed buckets keyed 0 and 1, the count of each bitstring is added to the
bucket named by its digit-sum parity.  Keys are bitstrings given as digit
lists; the result is the pair (even bucket, odd bucket). -/
def expDist (counts : List (List Nat × Nat)) : Nat × Nat :=
  counts.foldl
    (fun acc kv =>
      if kv.1.sum % 2 = 0 then (acc.1 + kv.2, acc.2) else (acc.1, acc.2 + kv.2))
    (0, 0)

/-- The shots falling on bitstrings of even digit-sum parity. -/
def evenShots (counts : List (List Nat × Nat)) : Nat :=
  ((counts.filter fun kv => kv.1.sum % 2 = 0).map Prod.snd).sum

/-- The shots falling on bitstrings of odd digit-sum parity. -/
def oddShots (counts : List (List Nat × Nat)) : Nat :=
  ((counts.filter fun kv => ¬ kv.1.sum % 2 = 0).map Prod.snd).sum

/-- The total number of shots recorded in a count distribution. -/
def totalShots (counts : List (List Nat × Nat)) : Nat :=
  (counts.map Prod.snd).sum

/-- Modelled from the spec: `metrics.polarization_fidelity` (the `metrics`
module is part of this repository but not under `src/`), specialized to
the ideal distribution assigning probability 1 to even parity used on line 129.  Given the
even/odd parity buckets, the experimental probability of even parity is
rescaled so that the uniform baseline `0.5` maps to `0` and certainty maps
to `1`, clamped below at `0`:
`fidelity = max(0, (p_even - 0.5) / (1 - 0.5))` (spec §4.4). -/
def polarization_fidelity (expd : Nat × Nat) : ℚ :=
  max 0 (((expd.1 : ℚ) / ((expd.1 : ℚ) + (expd.2 : ℚ)) - 1/2) / (1 - 1/2))

/-- `analyze_and_print_result` (lines 119-140): build the parity
distribution of the counts and return the counts together with the
polarization-rescaled fidelity.  No declared-shot-count parameter exists
and no consistency check is performed. -/
def analyze_and_print_result (counts : List (List Nat × Nat)) :
    List (List Nat × Nat) × ℚ :=
  (counts, polarization_fidelity (expDist counts))

/-- Projecting the compose-fold of `random_stabilizer` onto its `z` and `x`
components yields the xor-fold of `selXor`. -/
theorem foldl_compose_proj (t : Nat → Bool) :
    ∀ (l : List (Nat × Pauli)) (acc : Pauli),
      ((l.foldl (fun a ig => if t ig.1 then a.compose ig.2 else a) acc).z,
       (l.foldl (fun a ig => if t ig.1 then a.compose ig.2 else a) acc).x)
      = l.foldl
          (fun a ig =>
            if t ig.1 then
              (List.zipWith Bool.xor a.1 ig.2.z, List.zipWith Bool.xor a.2 ig.2.x)
            else a)
          (acc.z, acc.x)
  | [], acc => rfl
  | hd :: tl, acc => by
    simp only [List.foldl_cons]
    cases h : t hd.1 <;> simp only [h, if_true, if_false, Bool.false_eq_true]
    · exact foldl_compose_proj t tl acc
    · exact foldl_compose_proj t tl (acc.compose hd.2)

/-- The compose-fold preserves the lengths of the `z` and `x` bit lists
when every generator has the declared length. -/
theorem foldl_compose_len (t : Nat → Bool) (k : Nat) :
    ∀ (l : List (Nat × Pauli)) (acc : Pauli),
      acc.z.length = k → acc.x.length = k →
      (∀ p ∈ l, p.2.z.length = k ∧ p.2.x.length = k) →
      (l.foldl (fun a ig => if t ig.1 then a.compose ig.2 else a) acc).z.length = k ∧
      (l.foldl (fun a ig => if t ig.1 then a.compose ig.2 else a) acc).x.length = k
  | [], acc, hz, hx, _ => ⟨hz, hx⟩
  | hd :: tl, acc, hz, hx, hl => by
    simp only [List.foldl_cons]
    have hhd := hl hd (List.mem_cons_self _ _)
    have htl : ∀ p ∈ tl, p.2.z.length = k ∧ p.2.x.length = k :=
      fun p hp => hl p (List.mem_cons_of_mem _ hp)
    cases h : t hd.1 <;> simp only [h, if_true, if_false, Bool.false_eq_true]
    · exact foldl_compose_len t k tl acc hz hx htl
    · refine foldl_compose_len t k tl (acc.compose hd.2) ?_ ?_ htl
      · simp [Pauli.compose, hz, hhd.1]
      · simp [Pauli.compose, hx, hhd.2]

/-- C1: for every Clifford over `n ≥ 2` qubits — modelled by any list of
`n` independent stabilizer generators of length `n` — and every random
subset index `m` drawn from `[1, 2^n - 1]`, `random_stabilizer` returns a
signed Pauli string of length `n` that is not the all-identity string:
since `m ≥ 1`, at least one generator enters the product, and
independence of the generators keeps the product away from the
identity. -/
theorem random_stabilizer_never_identity (gens : List Pauli) (m : Nat)
    (hn : 2 ≤ gens.length)
    (hlen : ∀ g ∈ gens, g.z.length = gens.length ∧ g.x.length = gens.length)
    (hm1 : 1 ≤ m) (hm2 : m < 2 ^ gens.length)
    (hind : IndepGens gens) :
    (random_stabilizer gens m).z.length = gens.length ∧
    (random_stabilizer gens m).x.length = gens.length ∧
    isAllIdentity (random_stabilizer gens m) = false := by
  have hproj := foldl_compose_proj (fun i => m.testBit (gens.length - 1 - i))
    gens.enum (identityPauli gens.length)
  have hsel : ((random_stabilizer gens m).z, (random_stabilizer gens m).x)
      = selXor gens m := hproj
  have hzr : (random_stabilizer gens m).z = (selXor gens m).1 :=
    congrArg Prod.fst hsel
  have hxr : (random_stabilizer gens m).x = (selXor gens m).2 :=
    congrArg Prod.snd hsel
  have hany := hind m hm2 (Nat.one_le_iff_ne_zero.mp hm1)
  have hlen2 : ∀ p ∈ gens.enum, p.2.z.length = gens.length ∧ p.2.x.length = gens.length := by
    intro p hp
    exact hlen p.2 (List.getElem?_mem (List.mem_enum_iff_getElem?.mp hp))
  have hlens := foldl_compose_len (fun i => m.testBit (gens.length - 1 - i))
    gens.length gens.enum (identityPauli gens.length)
    (by simp [identityPauli]) (by simp [identityPauli]) hlen2
  refine ⟨hlens.1, hlens.2, ?_⟩
  rcases Bool.or_eq_true_iff.mp hany with h | h
  · rcases List.any_eq_true.mp h with ⟨b, hb, hbt⟩
    have hbtrue : b = true := hbt
    apply Bool.and_eq_false_iff.mpr
    left
    exact List.all_eq_false.mpr ⟨b, hzr ▸ hb, by simp [hbtrue]⟩
  · rcases List.any_eq_true.mp h with ⟨b, hb, hbt⟩
    have hbtrue : b = true := hbt
    apply Bool.and_eq_false_iff.mpr
    right
    exact List.all_eq_false.mpr ⟨b, hxr ▸ hb, by simp [hbtrue]⟩

/-- The imperative basis-rotation loop equals the per-symbol description:
folding `basisStep` appends exactly the concatenated per-symbol gates and
the filtered measured-qubit list. -/
theorem basisLoop_eq :
    ∀ (l : List (Nat × PauliSym)) (acc : List Instr × List Nat),
      l.foldl basisStep acc = (acc.1 ++ l.flatMap gateOf, acc.2 ++ l.filterMap mmtOf)
  | [], acc => by simp
  | hd :: tl, acc => by
    rw [List.foldl_cons, basisLoop_eq tl (basisStep acc hd)]
    cases hp : hd.2 <;>
      simp [basisStep, gateOf, mmtOf, hp, List.append_assoc]

/-- Closed form of `append_measurement`: it fails exactly when the sign is
negative and no qubit is measured, and otherwise returns the circuit
described by `specCirc` together with the measured-qubit list and a
classical register of matching size. -/
theorem append_measurement_spec (c : List Instr) (neg : Bool)
    (syms : List PauliSym) :
    append_measurement c neg syms =
      if neg = true ∧ specMmtQubits syms = [] then
        Except.error "IndexError: list index out of range"
      else
        Except.ok (specCirc c neg syms, specMmtQubits syms,
          (specMmtQubits syms).length) := by
  have hbs : (syms.reverse.enum).foldl basisStep ([], []) =
      (specBasisGates syms, specMmtQubits syms) := by
    rw [basisLoop_eq]
    simp [specBasisGates, specMmtQubits]
  unfold append_measurement
  rw [hbs]
  cases neg with
  | false =>
    cases hall : syms.all (fun p => p == PauliSym.Z || p == PauliSym.I) <;>
      simp [specCirc, hall]
  | true =>
    cases hmq : specMmtQubits syms with
    | nil => simp [hmq]
    | cons q t =>
      cases hall : syms.all (fun p => p == PauliSym.Z || p == PauliSym.I) <;>
        simp [specCirc, hall, hmq]

/-- Membership in the measured-qubit list extracted from an enumeration
starting at `k`: exactly the shifted positions holding a non-identity
symbol. -/
theorem mem_filterMap_mmtOf_enumFrom :
    ∀ (l : List PauliSym) (k i : Nat),
      i ∈ (l.enumFrom k).filterMap mmtOf ↔
        ∃ j, j < l.length ∧ i = k + j ∧ l.getD j PauliSym.I ≠ PauliSym.I
  | [], k, i => by simp
  | p :: t, k, i => by
    rw [List.enumFrom_cons, List.filterMap_cons]
    by_cases hpI : p = PauliSym.I
    · rw [show mmtOf (k, p) = none by simp [mmtOf, hpI]]
      rw [mem_filterMap_mmtOf_enumFrom t (k + 1) i]
      constructor
      · rintro ⟨j, hj, rfl, hne⟩
        exact ⟨j + 1, by simp only [List.length_cons]; omega, by omega,
          by simpa using hne⟩
      · rintro ⟨j, hj, rfl, hne⟩
        cases j with
        | zero => simp [hpI] at hne
        | succ j =>
          exact ⟨j, by simp only [List.length_cons] at hj; omega, by omega,
            by simpa using hne⟩
    · rw [show mmtOf (k, p) = some k by simp [mmtOf, hpI]]
      rw [List.mem_cons, mem_filterMap_mmtOf_enumFrom t (k + 1) i]
      constructor
      · rintro (rfl | ⟨j, hj, rfl, hne⟩)
        · exact ⟨0, by simp only [List.length_cons]; omega, by omega,
            by simpa using hpI⟩
        · exact ⟨j + 1, by simp only [List.length_cons]; omega, by omega,
            by simpa using hne⟩
      · rintro ⟨j, hj, rfl, hne⟩
        cases j with
        | zero => exact Or.inl (by simp)
        | succ j =>
          exact Or.inr ⟨j, by simp only [List.length_cons] at hj; omega, by omega,
            by simpa using hne⟩

/-- The measured-qubit list extracted from an enumeration starting at `k`
is bounded below by `k` and strictly increasing. -/
theorem sorted_filterMap_mmtOf_enumFrom :
    ∀ (l : List PauliSym) (k : Nat),
      (∀ i ∈ (l.enumFrom k).filterMap mmtOf, k ≤ i) ∧
      List.Pairwise (· < ·) ((l.enumFrom k).filterMap mmtOf)
  | [], k => by simp
  | p :: t, k => by
    rw [List.enumFrom_cons, List.filterMap_cons]
    obtain ⟨ihb, ihp⟩ := sorted_filterMap_mmtOf_enumFrom t (k + 1)
    by_cases hpI : p = PauliSym.I
    · rw [show mmtOf (k, p) = none by simp [mmtOf, hpI]]
      exact ⟨fun i hi => le_trans (by omega) (ihb i hi), ihp⟩
    · rw [show mmtOf (k, p) = some k by simp [mmtOf, hpI]]
      refine ⟨?_, ?_⟩
      · intro i hi
        rcases List.mem_cons.mp hi with rfl | hi
        · exact le_refl i
        · exact le_trans (by omega) (ihb i hi)
      · exact List.pairwise_cons.mpr ⟨fun i hi => lt_of_lt_of_le (by omega) (ihb i hi), ihp⟩

/-- The measured-qubit list has one entry per non-identity symbol. -/
theorem length_filterMap_mmtOf_enumFrom :
    ∀ (l : List PauliSym) (k : Nat),
      ((l.enumFrom k).filterMap mmtOf).length
        = l.countP (fun p => !(p == PauliSym.I))
  | [], _ => by simp
  | p :: t, k => by
    rw [List.enumFrom_cons, List.filterMap_cons]
    by_cases hpI : p = PauliSym.I
    · rw [show mmtOf (k, p) = none by simp [mmtOf, hpI]]
      rw [length_filterMap_mmtOf_enumFrom t (k + 1)]
      simp [List.countP_cons, hpI]
    · rw [show mmtOf (k, p) = some k by simp [mmtOf, hpI]]
      rw [List.length_cons, length_filterMap_mmtOf_enumFrom t (k + 1)]
      simp [List.countP_cons, hpI]

/-- C2: for every signed Pauli string with at least one non-identity
symbol, `append_measurement` succeeds and returns the circuit described
per symbol (no gate for `Z`, a Hadamard for `X`, S-dagger then Hadamard
for `Y`); the measured-qubit list contains exactly the positions carrying
non-identity symbols, its length equals the number of non-identity
symbols, its entries are distinct, and the classical bits assigned by the
measurement instructions are exactly `0, ..., k-1` in order, a bijection
onto `[0, k)`. -/
theorem append_measurement_rewrites (c : List Instr) (neg : Bool)
    (syms : List PauliSym) (hne : ∃ p ∈ syms, p ≠ PauliSym.I) :
    append_measurement c neg syms =
      Except.ok (specCirc c neg syms, specMmtQubits syms,
        (specMmtQubits syms).length) ∧
    (specMmtQubits syms).length = syms.countP (fun p => !(p == PauliSym.I)) ∧
    (∀ i, i ∈ specMmtQubits syms ↔
      i < syms.length ∧ syms.reverse.getD i PauliSym.I ≠ PauliSym.I) ∧
    (specMmtQubits syms).Nodup ∧
    (specMmtQubits syms).enum.map Prod.fst
      = List.range (specMmtQubits syms).length := by
  obtain ⟨p, hp, hpne⟩ := hne
  obtain ⟨j, hjl, hjp⟩ := List.mem_iff_getElem.mp (List.mem_reverse.mpr hp)
  have hjd : syms.reverse.getD j PauliSym.I ≠ PauliSym.I := by
    rw [List.getD_eq_getElem?_getD, List.getElem?_eq_getElem hjl, hjp]
    exact hpne
  have hmem : j ∈ specMmtQubits syms := by
    unfold specMmtQubits List.enum
    exact (mem_filterMap_mmtOf_enumFrom _ 0 j).mpr
      ⟨j, by simpa using hjl, by omega, hjd⟩
  have hnonnil : specMmtQubits syms ≠ [] := List.ne_nil_of_mem hmem
  refine ⟨?_, ?_, ?_, ?_, ?_⟩
  · rw [append_measurement_spec, if_neg]
    rintro ⟨-, hnil⟩
    exact hnonnil hnil
  · show ((syms.reverse.enum).filterMap mmtOf).length = _
    unfold List.enum
    rw [length_filterMap_mmtOf_enumFrom]
    exact List.countP_reverse _ syms
  · intro i
    unfold specMmtQubits List.enum
    rw [mem_filterMap_mmtOf_enumFrom]
    constructor
    · rintro ⟨j, hj, rfl, hne⟩
      exact ⟨by simpa using hj, by simpa using hne⟩
    · rintro ⟨hi, hne⟩
      exact ⟨i, by simpa using hi, by omega, hne⟩
  · exact List.Pairwise.imp Nat.ne_of_lt
      (sorted_filterMap_mmtOf_enumFrom syms.reverse 0).2
  · unfold List.enum
    rw [List.enumFrom_map_fst, List.range_eq_range']

/-- Witness for C2: the negative-sign string `-YZ` (qubit 1 carries `Y`,
qubit 0 carries `Z`) is rewritten into S-dagger and Hadamard on qubit 1,
a bit flip on the first measured qubit, a barrier, and measurements of
qubits 0 and 1 into classical bits 0 and 1. -/
theorem append_measurement_rewrites_witness :
    append_measurement [] true [PauliSym.Y, PauliSym.Z] =
      Except.ok (specCirc [] true [PauliSym.Y, PauliSym.Z],
        specMmtQubits [PauliSym.Y, PauliSym.Z],
        (specMmtQubits [PauliSym.Y, PauliSym.Z]).length) :=
  (append_measurement_rewrites [] true [PauliSym.Y, PauliSym.Z]
    (by decide)).1

/-- Witness for C1: with the independent stabilizer generators `+ZI` and
`+IZ` of the two-qubit all-zero state and the draw `m = 1`, the sampler
returns a non-identity string. -/
theorem random_stabilizer_never_identity_witness :
    IndepGens [genZI, genIZ] ∧
    isAllIdentity (random_stabilizer [genZI, genIZ] 1) = false :=
  ⟨by decide,
   (random_stabilizer_never_identity [genZI, genIZ] 1 (by decide) (by decide)
     (by decide) (by decide) (by decide)).2.2⟩

/-- No basis-change gate is ever a barrier. -/
theorem barrier_not_mem_specBasisGates (syms : List PauliSym) :
    Instr.barrier ∉ specBasisGates syms := by
  unfold specBasisGates
  intro hb
  rcases List.mem_flatMap.mp hb with ⟨ip, -, hmem⟩
  cases h : ip.2 <;> simp [gateOf, h] at hmem

/-- Counterexample to C3: on the all-identity string `II`,
`append_measurement` does not raise a distinguishable `EmptyStabilizer`
error.  With positive sign it silently returns the unchanged circuit with
an empty classical register and no measurement instructions, and with
negative sign it fails with a plain index error from `mmt_qubits[0]`. -/
theorem append_measurement_all_identity_counterexample :
    append_measurement [] false [PauliSym.I, PauliSym.I]
      = Except.ok ([], [], 0) ∧
    append_measurement [] true [PauliSym.I, PauliSym.I]
      = Except.error "IndexError: list index out of range" := by
  constructor <;> rfl

/-- C3 amended: on an all-identity Pauli string of any length,
`append_measurement` with positive sign silently returns the input
circuit with an empty measured-qubit list and a zero-size classical
register, and with negative sign it fails with an index error (from the
`mmt_qubits[0]` access on line 98), not an `EmptyStabilizer` error. -/
theorem append_measurement_all_identity (c : List Instr) (n : Nat) :
    append_measurement c false (List.replicate n PauliSym.I)
      = Except.ok (c, [], 0) ∧
    append_measurement c true (List.replicate n PauliSym.I)
      = Except.error "IndexError: list index out of range" := by
  have hmq : specMmtQubits (List.replicate n PauliSym.I) = [] := by
    unfold specMmtQubits
    rw [List.reverse_replicate]
    apply List.filterMap_eq_nil_iff.mpr
    intro a ha
    have h2 : a.2 ∈ List.map Prod.snd ((List.replicate n PauliSym.I).enum) :=
      List.mem_map_of_mem Prod.snd ha
    unfold List.enum at h2
    rw [List.enumFrom_map_snd] at h2
    simp [mmtOf, List.eq_of_mem_replicate h2]
  have hbg : specBasisGates (List.replicate n PauliSym.I) = [] := by
    unfold specBasisGates
    rw [List.reverse_replicate]
    apply List.flatMap_eq_nil_iff.mpr
    intro a ha
    have h2 : a.2 ∈ List.map Prod.snd ((List.replicate n PauliSym.I).enum) :=
      List.mem_map_of_mem Prod.snd ha
    unfold List.enum at h2
    rw [List.enumFrom_map_snd] at h2
    simp [gateOf, List.eq_of_mem_replicate h2]
  have hall : (List.replicate n PauliSym.I).all
      (fun p => p == PauliSym.Z || p == PauliSym.I) = true := by
    apply List.all_eq_true.mpr
    intro p hp
    rw [List.eq_of_mem_replicate hp]
    rfl
  constructor
  · rw [append_measurement_spec, if_neg (by simp)]
    rw [hmq]
    simp [specCirc, hmq, hbg, hall]
  · rw [append_measurement_spec, if_pos ⟨rfl, hmq⟩]

/-- C8: `append_measurement` inserts a barrier if and only if the
sign-stripped Pauli string contains a symbol that is neither `I` nor `Z`;
when every symbol is `I` or `Z` no barrier separates the (empty) basis
change from the measurements. -/
theorem append_measurement_barrier_iff (neg : Bool) (syms : List PauliSym)
    (r : List Instr × List Nat × Nat)
    (hok : append_measurement [] neg syms = Except.ok r) :
    Instr.barrier ∈ r.1 ↔ ∃ p ∈ syms, p ≠ PauliSym.I ∧ p ≠ PauliSym.Z := by
  rw [append_measurement_spec] at hok
  by_cases hcond : neg = true ∧ specMmtQubits syms = []
  · rw [if_pos hcond] at hok
    exact absurd hok (by simp)
  · rw [if_neg hcond] at hok
    have hr := Except.ok.inj hok
    have hr1 : r.1 = specCirc [] neg syms := by rw [← hr]
    rw [hr1]
    unfold specCirc
    rw [List.nil_append]
    have hA : Instr.barrier ∈ specBasisGates syms ↔ False :=
      iff_false_intro (barrier_not_mem_specBasisGates syms)
    have hX : Instr.barrier ∈
        (if neg then [Instr.x ((specMmtQubits syms).headD 0)] else []) ↔ False := by
      cases neg <;> simp
    have hM : Instr.barrier ∈
        (specMmtQubits syms).enum.map (fun iq => Instr.measure iq.2 iq.1) ↔ False := by
      simp
    have hB : Instr.barrier ∈
        (if syms.all (fun p => p == PauliSym.Z || p == PauliSym.I) then ([] : List Instr)
         else [Instr.barrier]) ↔
        syms.all (fun p => p == PauliSym.Z || p == PauliSym.I) = false := by
      cases hall : syms.all (fun p => p == PauliSym.Z || p == PauliSym.I) <;> simp [hall]
    simp only [List.mem_append, hA, hX, hM, hB, or_false, false_or]
    rw [List.all_eq_false]
    constructor
    · rintro ⟨p, hp, hpf⟩
      exact ⟨p, hp, by cases p <;> simp_all, by cases p <;> simp_all⟩
    · rintro ⟨p, hp, hpI, hpZ⟩
      exact ⟨p, hp, by cases p <;> simp_all⟩

/-- Witness for C8: the single-symbol string `X` needs a basis change, so
a barrier is inserted before the measurement. -/
theorem append_measurement_barrier_iff_witness :
    Instr.barrier ∈ ([Instr.h 0, Instr.barrier, Instr.measure 0 0] : List Instr) :=
  (append_measurement_barrier_iff false [PauliSym.X]
    ([Instr.h 0, Instr.barrier, Instr.measure 0 0], [0], 1) rfl).mpr
    ⟨PauliSym.X, by decide, by decide, by decide⟩

/-- Every edge produced by the coupling-graph normalization is a
two-endpoint frozenset, hence non-empty. -/
theorem couplingFilter_edges_nonempty (n : Nat) (g : List (Nat × Nat)) :
    ∀ f ∈ couplingFilter n g, f ≠ ∅ := by
  intro f hf
  unfold couplingFilter at hf
  rw [List.mem_dedup] at hf
  rcases List.mem_map.mp hf with ⟨e, -, rfl⟩
  exact Finset.insert_ne_empty _ _

/-- Everything the greedy loop selects comes from the remaining edge set. -/
theorem greedyAux_subset (pick : List (Finset Nat) → Finset Nat)
    (hpick : ∀ s, s ≠ [] → pick s ∈ s) :
    ∀ (fuel : Nat) (s : List (Finset Nat)), ∀ e ∈ greedyAux pick fuel s, e ∈ s
  | 0, s => by simp [greedyAux]
  | Nat.succ n, s => by
    intro e he
    unfold greedyAux at he
    by_cases hs : s = []
    · rw [if_pos hs] at he
      simp at he
    · rw [if_neg hs] at he
      rcases List.mem_cons.mp he with rfl | he
      · exact hpick s hs
      · exact List.mem_of_mem_filter
          (greedyAux_subset pick hpick n (removeTouching s (pick s)) e he)

/-- The edges selected by the greedy loop are pairwise vertex-disjoint: no
qubit participates in more than one chosen edge. -/
theorem greedyAux_pairwise (pick : List (Finset Nat) → Finset Nat)
    (hpick : ∀ s, s ≠ [] → pick s ∈ s) :
    ∀ (fuel : Nat) (s : List (Finset Nat)),
      List.Pairwise (fun a b => a ∩ b = ∅) (greedyAux pick fuel s)
  | 0, s => by simp [greedyAux]
  | Nat.succ n, s => by
    unfold greedyAux
    by_cases hs : s = []
    · rw [if_pos hs]
      exact List.Pairwise.nil
    · rw [if_neg hs]
      refine List.pairwise_cons.mpr ⟨?_, greedyAux_pairwise pick hpick n _⟩
      intro b hb
      have hbr : b ∈ removeTouching s (pick s) :=
        greedyAux_subset pick hpick n _ b hb
      have h2 : b ∩ pick s = ∅ :=
        of_decide_eq_true (List.mem_filter.mp hbr).2
      rw [Finset.inter_comm]
      exact h2

/-- With enough fuel, the greedy loop runs until no edge remains: every
edge of the starting set meets some selected edge, i.e. the selection is a
maximal matching. -/
theorem greedyAux_maximal (pick : List (Finset Nat) → Finset Nat)
    (hpick : ∀ s, s ≠ [] → pick s ∈ s) :
    ∀ (fuel : Nat) (s : List (Finset Nat)), s.length ≤ fuel →
      (∀ f ∈ s, f ≠ ∅) →
      ∀ f ∈ s, ∃ e ∈ greedyAux pick fuel s, f ∩ e ≠ ∅
  | 0, s, hle, _, f, hf =>
    absurd (List.length_eq_zero.mp (Nat.le_zero.mp hle)) (List.ne_nil_of_mem hf)
  | Nat.succ n, s, hle, hne, f, hf => by
    have hs : s ≠ [] := List.ne_nil_of_mem hf
    unfold greedyAux
    rw [if_neg hs]
    by_cases hmeet : f ∩ pick s = ∅
    · have hf2 : f ∈ removeTouching s (pick s) :=
        List.mem_filter.mpr ⟨hf, decide_eq_true hmeet⟩
      have hps := hpick s hs
      have hps_ne : pick s ≠ ∅ := hne _ hps
      have hle2 : (removeTouching s (pick s)).length ≤ s.length :=
        List.length_filter_le _ _
      have hnee : (removeTouching s (pick s)).length ≠ s.length := by
        intro heq
        have hall := List.filter_length_eq_length.mp heq (pick s) hps
        have hself : pick s ∩ pick s = ∅ := of_decide_eq_true hall
        rw [Finset.inter_self] at hself
        exact hps_ne hself
      have hlen : (removeTouching s (pick s)).length ≤ n := by omega
      have hne2 : ∀ e ∈ removeTouching s (pick s), e ≠ ∅ :=
        fun e he => hne e (List.mem_of_mem_filter he)
      obtain ⟨e, he, hfe⟩ :=
        greedyAux_maximal pick hpick n _ hlen hne2 f hf2
      exact ⟨e, List.mem_cons_of_mem _ he, hfe⟩
    · exact ⟨pick s, List.mem_cons_self _ _, hmeet⟩

/-- C7: for every coupling graph and every valid edge-choice function
(modelling the uniform random draw), the edges chosen for two-qubit
operations in a layer of `StabilizerCircuit` form a maximal matching of
the coupling graph: every chosen edge is a graph edge, no qubit
participates in more than one chosen edge, and the loop terminates with no
remaining edge addable — every graph edge shares an endpoint with some
chosen edge. -/
theorem greedy_matching_maximal (n : Nat) (g : List (Nat × Nat))
    (pick : List (Finset Nat) → Finset Nat)
    (hpick : ∀ s, s ≠ [] → pick s ∈ s) :
    (∀ e ∈ greedyMatching pick (couplingFilter n g), e ∈ couplingFilter n g) ∧
    List.Pairwise (fun a b => a ∩ b = ∅)
      (greedyMatching pick (couplingFilter n g)) ∧
    ∀ f ∈ couplingFilter n g,
      ∃ e ∈ greedyMatching pick (couplingFilter n g), f ∩ e ≠ ∅ := by
  refine ⟨greedyAux_subset pick hpick _ _, greedyAux_pairwise pick hpick _ _, ?_⟩
  exact greedyAux_maximal pick hpick _ _ (le_refl _)
    (couplingFilter_edges_nonempty n g)

/-- The head choice function is a valid edge choice. -/
theorem headPick_mem (s : List (Finset Nat)) (hs : s ≠ []) : headPick s ∈ s := by
  cases s with
  | nil => exact absurd rfl hs
  | cons a t => exact List.mem_cons_self a t

/-- Witness for C7: on the triangle graph over three qubits, the chosen
edges are pairwise vertex-disjoint. -/
theorem greedy_matching_maximal_witness :
    List.Pairwise (fun a b => a ∩ b = ∅)
      (greedyMatching headPick (couplingFilter 3 [(0, 1), (1, 2), (0, 2)])) :=
  (greedy_matching_maximal 3 [(0, 1), (1, 2), (0, 2)] headPick
    (fun s hs => headPick_mem s hs)).2.1

/-- Counterexample to C4: an edge referencing qubit 5 in a 2-qubit circuit
is silently dropped by the coupling-graph normalization — the edge set
becomes empty and no error of any kind is raised (the model of the
topology step is a total function). -/
theorem invalid_topology_counterexample :
    couplingFilter 2 [(0, 5)] = [] ∧
    greedyMatching headPick (couplingFilter 2 [(0, 5)]) = [] := by
  constructor <;> rfl

/-- C4 amended: `StabilizerCircuit` never fails on an out-of-range edge;
line 35 silently filters such edges out, so every edge that survives into
the coupling set lies entirely within `[0, num_qubits)`. -/
theorem couplingFilter_in_range (n : Nat) (g : List (Nat × Nat)) :
    ∀ f ∈ couplingFilter n g, ∀ q ∈ f, q < n := by
  intro f hf q hq
  unfold couplingFilter at hf
  rw [List.mem_dedup] at hf
  rcases List.mem_map.mp hf with ⟨e, he, rfl⟩
  have hlt := of_decide_eq_true (List.mem_filter.mp he).2
  rcases Finset.mem_insert.mp hq with rfl | hq2
  · exact hlt.1
  · rw [Finset.mem_singleton.mp hq2]
    exact hlt.2

/-- Witness for C4 amended: the in-range edge `{0, 1}` survives the filter
next to a dropped out-of-range edge, and its endpoint 0 is in range. -/
theorem couplingFilter_in_range_witness :
    ({0, 1} : Finset Nat) ∈ couplingFilter 2 [(0, 1), (0, 5)] ∧ (0 : Nat) < 2 :=
  ⟨by decide,
   couplingFilter_in_range 2 [(0, 1), (0, 5)] {0, 1} (by decide) 0 (by decide)⟩

/-- The parity fold of the analyzer, started from arbitrary bucket
contents, adds exactly the even-parity shots to the first bucket and the
odd-parity shots to the second. -/
theorem expDist_foldl :
    ∀ (counts : List (List Nat × Nat)) (a b : Nat),
      counts.foldl
        (fun acc kv =>
          if kv.1.sum % 2 = 0 then (acc.1 + kv.2, acc.2) else (acc.1, acc.2 + kv.2))
        (a, b)
      = (a + evenShots counts, b + oddShots counts)
  | [], a, b => by simp [evenShots, oddShots]
  | kv :: t, a, b => by
    by_cases hp : kv.1.sum % 2 = 0
    · rw [List.foldl_cons, if_pos hp, expDist_foldl t (a + kv.2) b]
      unfold evenShots oddShots
      rw [List.filter_cons, List.filter_cons]
      simp [hp, Nat.add_assoc]
    · rw [List.foldl_cons, if_neg hp, expDist_foldl t a (b + kv.2)]
      unfold evenShots oddShots
      rw [List.filter_cons, List.filter_cons]
      simp [hp, Nat.add_assoc]

/-- The two parity buckets are exactly the even and odd shot totals. -/
theorem expDist_eq_buckets (counts : List (List Nat × Nat)) :
    expDist counts = (evenShots counts, oddShots counts) := by
  unfold expDist
  rw [expDist_foldl]
  simp

/-- Even and odd shots together account for every recorded shot. -/
theorem evenShots_add_oddShots :
    ∀ counts : List (List Nat × Nat),
      evenShots counts + oddShots counts = totalShots counts
  | [] => rfl
  | kv :: t => by
    have ih := evenShots_add_oddShots t
    unfold evenShots oddShots totalShots at ih ⊢
    rw [List.filter_cons, List.filter_cons, List.map_cons, List.sum_cons]
    by_cases hp : kv.1.sum % 2 = 0
    · rw [if_pos (decide_eq_true hp), if_neg (by simp [hp])]
      rw [List.map_cons, List.sum_cons]
      omega
    · rw [if_neg (by simp [hp]), if_pos (by simp [hp])]
      rw [List.map_cons, List.sum_cons]
      omega

/-- C10: the parity distribution built by the analyzer is an exact
partition of the input counts: the even bucket holds precisely the shots
of even-parity bitstrings, the odd bucket the rest, and the two buckets
sum to the total of all input counts (both are non-negative by the `Nat`
count model). -/
theorem expDist_partitions (counts : List (List Nat × Nat)) :
    (expDist counts).1 = evenShots counts ∧
    (expDist counts).2 = oddShots counts ∧
    (expDist counts).1 + (expDist counts).2 = totalShots counts := by
  have h := expDist_eq_buckets counts
  refine ⟨by rw [h], by rw [h], ?_⟩
  rw [h]
  exact evenShots_add_oddShots counts

/-- The fidelity computed by the analyzer equals the rescaling formula of the spec
`max(0, (p_even - 0.5) / (1 - 0.5))` with `p_even` the even-parity
fraction of the recorded shots. -/
theorem polarization_fidelity_formula (counts : List (List Nat × Nat)) :
    polarization_fidelity (expDist counts) =
      max 0 (((evenShots counts : ℚ) / (totalShots counts : ℚ) - 1/2)
        / (1 - 1/2)) := by
  unfold polarization_fidelity
  rw [expDist_eq_buckets]
  have hco : ((evenShots counts : ℚ) + (oddShots counts : ℚ))
      = (totalShots counts : ℚ) := by
    rw [← Nat.cast_add, evenShots_add_oddShots]
  simp only []
  rw [hco]

/-- C6: for every count distribution with positive total, the analyzer
partitions the counts by bitstring parity and returns
`max(0, (p_even - 0.5) / (1 - 0.5))`. -/
theorem analyze_fidelity_formula (counts : List (List Nat × Nat))
    (hpos : 0 < totalShots counts) :
    (analyze_and_print_result counts).2 =
      max 0 (((evenShots counts : ℚ) / (totalShots counts : ℚ) - 1/2)
        / (1 - 1/2)) :=
  polarization_fidelity_formula counts

/-- Witness for C6: the all-even distribution `{"00": 50, "11": 50}`
yields fidelity 1, and the all-odd distribution `{"01": 50, "10": 50}`
yields fidelity 0 (clamped). -/
theorem analyze_fidelity_formula_witness :
    (analyze_and_print_result [([0, 0], 50), ([1, 1], 50)]).2 = 1 ∧
    (analyze_and_print_result [([0, 1], 50), ([1, 0], 50)]).2 = 0 := by
  constructor
  · rw [analyze_fidelity_formula _ (by decide)]
    norm_num [evenShots, totalShots]
  · rw [analyze_fidelity_formula _ (by decide)]
    norm_num [evenShots, totalShots]

/-- Counterexample to C5: a count distribution totalling 30 shots — in
disagreement with the nominal 100 declared shots of the benchmark — is
accepted by the analyzer, which returns a fidelity value instead of
surfacing any `ShotCountMismatch` failure (the analyzer takes no declared
shot count at all). -/
theorem shot_count_mismatch_counterexample :
    (analyze_and_print_result [([0, 0], 30)]).2 = 1 := by
  norm_num [analyze_and_print_result, polarization_fidelity, expDist]

/-- C5 amended: the parity analyzer performs no shot-count validation:
for every count distribution whose total disagrees with a declared shot
count, it still returns the counts unchanged together with a
(non-negative) fidelity computed from the distribution alone. -/
theorem analyze_no_shot_validation (counts : List (List Nat × Nat))
    (declared : Nat) (hmis : totalShots counts ≠ declared) :
    (analyze_and_print_result counts).1 = counts ∧
    0 ≤ (analyze_and_print_result counts).2 ∧
    (analyze_and_print_result counts).2 =
      max 0 (((evenShots counts : ℚ) / (totalShots counts : ℚ) - 1/2)
        / (1 - 1/2)) := by
  refine ⟨rfl, ?_, polarization_fidelity_formula counts⟩
  show (0 : ℚ) ≤ max 0 _
  exact le_max_left _ _

/-- Witness for C5 amended: a 30-shot distribution against a declared
total of 100. -/
theorem analyze_no_shot_validation_witness :
    totalShots [([0, 1], 30)] ≠ 100 ∧
    (analyze_and_print_result [([0, 1], 30)]).1 = [([0, 1], 30)] :=
  ⟨by decide,
   (analyze_no_shot_validation [([0, 1], 30)] 100 (by decide)).1⟩
